import Mathlib

/-!
Shallow embedding of the causal data types and the client command handler of
the sucredb repository.

Sources embedded here:
- src/version_vector.rs : BitmappedVersion, BitmappedVersionVector,
  VersionVector, Dots, DottedCausalContainer and their operations.
- src/commands.rs : Database::handler_cmd, cmd_get, cmd_set, cmd_del.

Modelling conventions:
- The Rust LinearMap (a vector of key-value pairs with unique keys, lookup by
  first match, insert replacing in place or pushing at the end) is modelled by
  LMap.get / LMap.insert over List (k x v).  The LinearMap key-uniqueness
  invariant is the predicate LMap.WF; PartialEq on LinearMap is
  order-independent map equality, which for well-formed maps coincides with
  extensional equality of LMap.get, and that is the equality used in the
  theorems below.
- The ramp big integer bitmap is modelled by Nat with the corresponding bit
  operations (set_bit i = lor with 1 <<< i, the shifts and ors are the Nat
  ones).  u64 counters are modelled by Nat; no claim here depends on wrap
  around behaviour.
- Functions that the Rust code can abort (index out of bounds, the
  unimplemented! arms) are modelled with an explicit Bool flag (true = the
  handler aborts at that point) together with the list of store operations
  performed before the abort, in order.
-/

/-- NodeId is u64 in the source (source name: Id, renamed to avoid the Lean
builtin Id). -/
abbrev NodeId := Nat

/-- Version is u64 in the source. -/
abbrev Version := Nat

/-- A dot: pair (actor, version). -/
abbrev Dot := NodeId × Version

/-- Lookup by first matching key, as LinearMap::get. -/
def LMap.get {k v : Type} [DecidableEq k] (m : List (k × v)) (key : k) : Option v :=
  match m with
  | [] => none
  | (k0, v0) :: rest => if k0 = key then some v0 else LMap.get rest key

/-- Insert as LinearMap::insert: replace the value in place if the key is
present, push at the end otherwise. -/
def LMap.insert {k v : Type} [DecidableEq k] (m : List (k × v)) (key : k) (val : v) : List (k × v) :=
  match m with
  | [] => [(key, val)]
  | (k0, v0) :: rest =>
    if k0 = key then (k0, val) :: rest else (k0, v0) :: LMap.insert rest key val

/-- The LinearMap invariant: keys are pairwise distinct. -/
def LMap.WF {k v : Type} (m : List (k × v)) : Prop :=
  (m.map Prod.fst).Nodup

/-- First option if some, else the second (used to state which value survives
when both sides of a merge hold the same key). -/
def olift {v : Type} (a b : Option v) : Option v :=
  match a with
  | some x => some x
  | none => b

/-- Pointwise max of two partial Nat maps at one key (missing entries stay
missing unless the other side has one). -/
def maxOpt (a b : Option Nat) : Option Nat :=
  match a, b with
  | some x, some y => some (max x y)
  | some x, none => some x
  | none, y => y

/-- BitmappedVersion: (base, bitmap), the set of versions [1, base] plus
base + 1 + i for every set bit i of bitmap. -/
structure BitmappedVersion where
  base : Version
  bitmap : Nat
deriving DecidableEq, Repr

/-- Count of trailing one bits, fuel-based so that it is structurally
recursive (the fuel n always suffices since the count is at most the bit
length of n). -/
def trailingOnesAux : Nat → Nat → Nat
  | 0, _ => 0
  | fuel + 1, n => if n % 2 = 1 then trailingOnesAux fuel (n / 2) + 1 else 0

/-- The trailing-ones count computed by the loop in BitmappedVersion::norm. -/
def trailingOnes (n : Nat) : Nat :=
  trailingOnesAux n n

/-- BitmappedVersion::norm: move the trailing ones of the bitmap into the
base.  When the count is zero the source leaves the value untouched, which
coincides with adding 0 and shifting by 0. -/
def BitmappedVersion.norm (b : BitmappedVersion) : BitmappedVersion :=
  let k := trailingOnes b.bitmap
  { base := b.base + k, bitmap := b.bitmap >>> k }

/-- BitmappedVersion::add. -/
def BitmappedVersion.add (b : BitmappedVersion) (version : Version) : BitmappedVersion :=
  if b.base < version then
    BitmappedVersion.norm { base := b.base, bitmap := b.bitmap ||| (1 <<< (version - b.base - 1)) }
  else
    b

/-- BitmappedVersion::join. -/
def BitmappedVersion.join (b other : BitmappedVersion) : BitmappedVersion :=
  BitmappedVersion.norm
    (if other.base ≤ b.base then
      { base := b.base, bitmap := b.bitmap ||| (other.bitmap >>> (b.base - other.base)) }
    else
      { base := other.base, bitmap := (b.bitmap >>> (other.base - b.base)) ||| other.bitmap })

/-- The normalization invariant of the spec: bit 0 of the bitmap is 0, or the
bitmap is 0 entirely (bit 0 being 0 is bitmap % 2 = 0). -/
def BitmappedVersion.inv (b : BitmappedVersion) : Prop :=
  b.bitmap % 2 = 0 ∨ b.bitmap = 0

/-- VersionVector as a LinearMap from actor to version. -/
abbrev VersionVector := List (NodeId × Version)

/-- VersionVector::new. -/
def VersionVector.new : VersionVector := []

/-- VersionVector::add: vacant inserts, occupied takes the max (keeps the old
value unless it is smaller). -/
def VersionVector.add (m : VersionVector) (id : NodeId) (version : Version) : VersionVector :=
  match LMap.get m id with
  | none => LMap.insert m id version
  | some old => if old < version then LMap.insert m id version else m

/-- VersionVector::merge: add every entry of other, in order. -/
def VersionVector.merge : VersionVector → VersionVector → VersionVector
  | s, [] => s
  | s, (id, version) :: rest => VersionVector.merge (VersionVector.add s id version) rest

/-- BitmappedVersionVector as a LinearMap from actor to BitmappedVersion. -/
abbrev BitmappedVersionVector := List (NodeId × BitmappedVersion)

/-- BitmappedVersionVector::get. -/
def BitmappedVersionVector.get (m : BitmappedVersionVector) (id : NodeId) : Option BitmappedVersion :=
  LMap.get m id

/-- BitmappedVersionVector::join: join other entry-wise into the entries this
side already has; entries present only in other are dropped. -/
def BitmappedVersionVector.join : BitmappedVersionVector → BitmappedVersionVector → BitmappedVersionVector
  | a, [] => a
  | a, (id, obv) :: rest =>
    BitmappedVersionVector.join
      (match LMap.get a id with
       | some bv => LMap.insert a id (BitmappedVersion.join bv obv)
       | none => a)
      rest

/-- BitmappedVersionVector::event: vacant inserts (1, 0) and returns 1;
occupied increments the base and returns it, keeping the bitmap (the source
only debug-asserts that the bitmap is 0). -/
def BitmappedVersionVector.event (m : BitmappedVersionVector) (id : NodeId) :
    Version × BitmappedVersionVector :=
  match LMap.get m id with
  | none => (1, LMap.insert m id { base := 1, bitmap := 0 })
  | some bv => (bv.base + 1, LMap.insert m id { base := bv.base + 1, bitmap := bv.bitmap })

/-- First phase of Dots::merge: drain self into other, collecting the dots
present on both sides (insert returned an old value) into dups. -/
def Dots.phase1 {T : Type} :
    List (Dot × T) → List (Dot × T) → List (Dot × Unit) → List (Dot × T) × List (Dot × Unit)
  | [], other, dups => (other, dups)
  | (dot, value) :: rest, other, dups =>
    Dots.phase1 rest (LMap.insert other dot value)
      (if (LMap.get other dot).isSome = true then LMap.insert dups dot () else dups)

/-- Second phase of Dots::merge: drain the union back into self (initially
empty), keeping a dot iff it is a duplicate or its version equals the max of
the two version-vector entries for its actor (missing entries read as 0). -/
def Dots.phase2 {T : Type} (dups : List (Dot × Unit)) (vv1 vv2 : VersionVector) :
    List (Dot × T) → List (Dot × T) → List (Dot × T)
  | [], acc => acc
  | ((id, version), value) :: rest, acc =>
    if (LMap.get dups (id, version)).isSome = true ∨
        version = max ((LMap.get vv1 id).getD 0) ((LMap.get vv2 id).getD 0) then
      Dots.phase2 dups vv1 vv2 rest (LMap.insert acc (id, version) value)
    else
      Dots.phase2 dups vv1 vv2 rest acc

/-- Dots::merge. -/
def Dots.merge {T : Type} (selfd otherd : List (Dot × T)) (vv1 vv2 : VersionVector) :
    List (Dot × T) :=
  let p := Dots.phase1 selfd otherd []
  Dots.phase2 p.2 vv1 vv2 p.1 []

/-- DottedCausalContainer: per-key concurrent values tagged by dots, plus a
version vector. -/
structure DottedCausalContainer (T : Type) where
  dots : List (Dot × T)
  vv : VersionVector
deriving DecidableEq, Repr

/-- The LinearMap invariants of both components. -/
def DottedCausalContainer.WF {T : Type} (d : DottedCausalContainer T) : Prop :=
  LMap.WF d.dots ∧ LMap.WF d.vv

/-- DottedCausalContainer::sync: merge the dots using both old version
vectors, then merge the version vectors. -/
def DottedCausalContainer.sync {T : Type} (x y : DottedCausalContainer T) :
    DottedCausalContainer T :=
  { dots := Dots.merge x.dots y.dots x.vv y.vv
    vv := VersionVector.merge x.vv y.vv }

/-- DottedCausalContainer::discard: keep only dots whose version is above the
context entry for their actor (missing reads as 0), then merge the context
into the version vector. -/
def DottedCausalContainer.discard {T : Type} (d : DottedCausalContainer T)
    (ctx : VersionVector) : DottedCausalContainer T :=
  { dots := d.dots.filter (fun p => decide ((LMap.get ctx p.1.1).getD 0 < p.1.2))
    vv := VersionVector.merge d.vv ctx }

/-- DottedCausalContainer::strip: drop version-vector entries at or below the
base of the corresponding node-clock entry (missing reads as 0). -/
def DottedCausalContainer.strip {T : Type} (d : DottedCausalContainer T)
    (bvv : BitmappedVersionVector) : DottedCausalContainer T :=
  { d with
    vv := d.vv.filter
      (fun p => decide (((LMap.get bvv p.1).map BitmappedVersion.base).getD 0 < p.2)) }

/-- The loop of DottedCausalContainer::fill over the node-clock entries. -/
def DottedCausalContainer.fillVV : VersionVector → BitmappedVersionVector → VersionVector
  | s, [] => s
  | s, (id, bv) :: rest => DottedCausalContainer.fillVV (VersionVector.add s id bv.base) rest

/-- DottedCausalContainer::fill: add (id, base) for every node-clock entry. -/
def DottedCausalContainer.fill {T : Type} (d : DottedCausalContainer T)
    (bvv : BitmappedVersionVector) : DottedCausalContainer T :=
  { d with vv := DottedCausalContainer.fillVV d.vv bvv }

/-- Extensional equality of two containers, i.e. PartialEq of the underlying
LinearMaps for well-formed values. -/
def DottedCausalContainer.eqv {T : Type} (a b : DottedCausalContainer T) : Prop :=
  (∀ p : Dot, LMap.get a.dots p = LMap.get b.dots p) ∧
  (∀ i : NodeId, LMap.get a.vv i = LMap.get b.vv i)

/-- Decidability of the normalization invariant, for concrete checks. -/
instance (b : BitmappedVersion) : Decidable b.inv := by
  unfold BitmappedVersion.inv
  infer_instance

/-- Decidability of the LinearMap invariant, for concrete checks. -/
instance {k v : Type} [DecidableEq k] (m : List (k × v)) : Decidable (LMap.WF m) := by
  unfold LMap.WF
  infer_instance

/-- Decidability of the container invariant, for concrete checks. -/
instance {T : Type} (d : DottedCausalContainer T) : Decidable d.WF := by
  unfold DottedCausalContainer.WF
  infer_instance

/-- Byte strings of the wire protocol. -/
abbrev Bytes := List Nat

/-- The RESP values handler_cmd distinguishes: Data, Array, and everything
else (which hits an unimplemented! arm). -/
inductive RespValue where
  | data (bytes : Bytes)
  | array (items : List RespValue)
  | other

/-- ASCII b"GET". -/
def bGET : Bytes := [71, 69, 84]

/-- ASCII b"MGET". -/
def bMGET : Bytes := [77, 71, 69, 84]

/-- ASCII b"SET". -/
def bSET : Bytes := [83, 69, 84]

/-- ASCII b"MSET". -/
def bMSET : Bytes := [77, 83, 69, 84]

/-- ASCII b"DEL". -/
def bDEL : Bytes := [68, 69, 76]

/-- ASCII b"MDEL". -/
def bMDEL : Bytes := [77, 68, 69, 76]

/-- A store operation issued by the command handler: Database::get or
Database::set with the arguments the handler passes. -/
inductive StoreOp where
  | get (key : Bytes)
  | set (key : Bytes) (value : Option Bytes) (ctx : VersionVector)
deriving DecidableEq, Repr

/-- The argument-collection loop of handler_cmd: every item must be Data,
anything else aborts. -/
def extractData : List RespValue → Option (List Bytes)
  | [] => some []
  | RespValue.data d :: rest => (extractData rest).map (fun l => d :: l)
  | _ :: _ => none

/-- Slice::chunks n, fuel-based on the length (exact for n at least 1). -/
def chunksGo {A : Type} (n : Nat) : Nat → List A → List (List A)
  | _, [] => []
  | 0, _ => []
  | fuel + 1, l => l.take n :: chunksGo n fuel (l.drop n)

/-- Slice::chunks n. -/
def chunks {A : Type} (n : Nat) (l : List A) : List (List A) :=
  chunksGo n l.length l

/-- Database::cmd_get: one Database::get per element of args (including the
verb at index 0, which the source does not skip). -/
def Database.cmd_get (args : List Bytes) : List StoreOp × Bool :=
  (args.map StoreOp.get, false)

/-- The loop of Database::cmd_set over chunks of 3: w[0] is the chunk head and
w[1] its second element; a one-element final chunk makes w[1] an
out-of-bounds index, which aborts after the earlier iterations ran. -/
def Database.runSetChunks : List (List Bytes) → List StoreOp × Bool
  | [] => ([], false)
  | (k :: v :: _) :: rest =>
    let r := Database.runSetChunks rest
    (StoreOp.set k (some v) VersionVector.new :: r.1, r.2)
  | _ => ([], true)

/-- Database::cmd_set. -/
def Database.cmd_set (args : List Bytes) : List StoreOp × Bool :=
  Database.runSetChunks (chunks 3 args)

/-- The loop of Database::cmd_del over chunks of 2: only w[0] is read, so no
chunk shape aborts. -/
def Database.runDelChunks : List (List Bytes) → List StoreOp × Bool
  | [] => ([], false)
  | (k :: _) :: rest =>
    let r := Database.runDelChunks rest
    (StoreOp.set k none VersionVector.new :: r.1, r.2)
  | [] :: _ => ([], true)

/-- Database::cmd_del. -/
def Database.cmd_del (args : List Bytes) : List StoreOp × Bool :=
  Database.runDelChunks (chunks 2 args)

/-- Database::handler_cmd: returns the store operations issued in order and
whether the handler aborts (unimplemented! arm or out-of-bounds index). -/
def Database.handler_cmd (cmd : RespValue) : List StoreOp × Bool :=
  match cmd with
  | RespValue.array a =>
    if 0 < a.length ∧ a.length ≤ 32 then
      match extractData a with
      | some args =>
        match args with
        | [] => ([], true)
        | verb :: _ =>
          if verb = bGET ∨ verb = bMGET then Database.cmd_get args
          else if verb = bSET ∨ verb = bMSET then Database.cmd_set args
          else if verb = bDEL ∨ verb = bMDEL then Database.cmd_del args
          else ([], true)
      | none => ([], true)
    else ([], true)
  | _ => ([], true)

/-! Basic lemmas about the LinearMap model. -/

theorem LMap.get_insert {k v : Type} [DecidableEq k] (m : List (k × v)) (key : k) (val : v)
    (j : k) :
    LMap.get (LMap.insert m key val) j = if key = j then some val else LMap.get m j := by
  induction m with
  | nil => simp [LMap.insert, LMap.get]
  | cons p rest ih =>
    obtain ⟨k0, v0⟩ := p
    by_cases h : k0 = key
    · subst h
      by_cases h2 : k0 = j <;> simp [LMap.insert, LMap.get, h2]
    · by_cases h2 : k0 = j
      · subst h2
        have hne : ¬ key = k0 := fun hh => h hh.symm
        simp [LMap.insert, LMap.get, h, hne]
      · simp [LMap.insert, LMap.get, h, h2, ih]

theorem LMap.mem_keys_insert {k v : Type} [DecidableEq k] (m : List (k × v)) (key : k) (val : v)
    (j : k) :
    j ∈ (LMap.insert m key val).map Prod.fst ↔ j ∈ m.map Prod.fst ∨ j = key := by
  induction m with
  | nil => simp [LMap.insert]
  | cons p rest ih =>
    obtain ⟨k0, v0⟩ := p
    by_cases h : k0 = key <;> simp [LMap.insert, h, ih] <;> tauto

theorem LMap.WF_insert {k v : Type} [DecidableEq k] {m : List (k × v)} (hm : LMap.WF m)
    (key : k) (val : v) : LMap.WF (LMap.insert m key val) := by
  induction m with
  | nil => simp [LMap.insert, LMap.WF]
  | cons p rest ih =>
    obtain ⟨k0, v0⟩ := p
    rw [LMap.WF, List.map_cons, List.nodup_cons] at hm
    by_cases h : k0 = key
    · simpa [LMap.insert, h, LMap.WF] using hm
    · have hr := ih hm.2
      rw [LMap.WF]
      simp only [LMap.insert, if_neg h, List.map_cons, List.nodup_cons]
      refine ⟨?_, hr⟩
      rw [LMap.mem_keys_insert]
      rintro (hmem | rfl)
      · exact hm.1 hmem
      · exact h rfl

theorem LMap.get_eq_none_of_not_mem {k v : Type} [DecidableEq k] {m : List (k × v)} {key : k}
    (h : key ∉ m.map Prod.fst) : LMap.get m key = none := by
  induction m with
  | nil => rfl
  | cons p rest ih =>
    obtain ⟨k0, v0⟩ := p
    simp only [List.map_cons, List.mem_cons] at h
    push_neg at h
    have hne : k0 ≠ key := fun hh => h.1 hh.symm
    simpa [LMap.get, hne] using ih h.2

theorem LMap.get_mem {k v : Type} [DecidableEq k] {m : List (k × v)} {key : k} {val : v}
    (h : LMap.get m key = some val) : (key, val) ∈ m := by
  induction m with
  | nil => simp [LMap.get] at h
  | cons p rest ih =>
    obtain ⟨k0, v0⟩ := p
    by_cases h0 : k0 = key
    · subst h0
      have hv : v0 = val := by simpa [LMap.get] using h
      subst hv
      exact List.mem_cons_self _ _
    · simp only [LMap.get, if_neg h0] at h
      exact List.mem_cons_of_mem _ (ih h)

theorem LMap.isSome_of_mem {k v : Type} [DecidableEq k] {m : List (k × v)} {key : k} {val : v}
    (h : (key, val) ∈ m) : (LMap.get m key).isSome = true := by
  induction m with
  | nil => simp at h
  | cons p rest ih =>
    obtain ⟨k0, v0⟩ := p
    rcases List.mem_cons.mp h with h1 | h2
    · cases h1
      simp [LMap.get]
    · by_cases h0 : k0 = key <;> simp [LMap.get, h0, ih h2]

theorem LMap.get_filter {k v : Type} [DecidableEq k] {m : List (k × v)} (hm : LMap.WF m)
    (p : k × v → Bool) (j : k) :
    LMap.get (m.filter p) j =
      match LMap.get m j with
      | some x => if p (j, x) then some x else none
      | none => none := by
  induction m with
  | nil => rfl
  | cons q rest ih =>
    obtain ⟨k0, v0⟩ := q
    rw [LMap.WF, List.map_cons, List.nodup_cons] at hm
    have ihr := ih hm.2
    by_cases h0 : k0 = j
    · subst h0
      have hnone : LMap.get (rest.filter p) k0 = none := by
        apply LMap.get_eq_none_of_not_mem
        intro hmem
        exact hm.1 (((List.filter_sublist rest).map Prod.fst).subset hmem)
      by_cases hp : p (k0, v0) <;> simp [List.filter_cons, hp, LMap.get, hnone]
    · by_cases hp : p (k0, v0) <;> simp [List.filter_cons, hp, LMap.get, h0, ihr]

/-! Lemmas about VersionVector operations. -/

theorem VersionVector.get_add (m : VersionVector) (i : NodeId) (v : Version) (j : NodeId) :
    LMap.get (VersionVector.add m i v) j =
      if i = j then some (max ((LMap.get m i).getD 0) v) else LMap.get m j := by
  cases hm : LMap.get m i with
  | none =>
    simp only [VersionVector.add, hm]
    rw [LMap.get_insert]
    by_cases h : i = j <;> simp [h, hm]
  | some old =>
    simp only [VersionVector.add, hm]
    by_cases hlt : old < v
    · rw [if_pos hlt, LMap.get_insert]
      by_cases h : i = j <;> simp [h, hm, max_eq_right (Nat.le_of_lt hlt)]
    · rw [if_neg hlt]
      by_cases h : i = j
      · subst h
        simp [hm, max_eq_left (Nat.le_of_not_lt hlt)]
      · simp [h]

theorem VersionVector.WF_add {m : VersionVector} (hm : LMap.WF m) (i : NodeId) (v : Version) :
    LMap.WF (VersionVector.add m i v) := by
  cases hg : LMap.get m i with
  | none =>
    simp only [VersionVector.add, hg]
    exact LMap.WF_insert hm i v
  | some old =>
    simp only [VersionVector.add, hg]
    by_cases hlt : old < v
    · simpa [hlt] using LMap.WF_insert hm i v
    · simpa [hlt] using hm

theorem VersionVector.get_merge (s : VersionVector) {o : VersionVector} (ho : LMap.WF o)
    (j : NodeId) :
    LMap.get (VersionVector.merge s o) j = maxOpt (LMap.get s j) (LMap.get o j) := by
  induction o generalizing s with
  | nil => cases hs : LMap.get s j <;> simp [VersionVector.merge, maxOpt, LMap.get, hs]
  | cons p rest ih =>
    obtain ⟨i, v⟩ := p
    rw [LMap.WF, List.map_cons, List.nodup_cons] at ho
    rw [VersionVector.merge, ih _ ho.2, VersionVector.get_add]
    by_cases h : i = j
    · subst h
      rw [LMap.get_eq_none_of_not_mem ho.1]
      cases hs : LMap.get s i <;> simp [LMap.get, maxOpt, hs]
    · have hg : LMap.get ((i, v) :: rest) j = LMap.get rest j := by
        simp [LMap.get, h]
      simp only [if_neg h, hg]

/-! Lemmas about BitmappedVersion. -/

theorem trailingOnesAux_shift_even (fuel : Nat) :
    ∀ n : Nat, n ≤ fuel → (n >>> trailingOnesAux fuel n) % 2 = 0 := by
  induction fuel with
  | zero =>
    intro n hn
    interval_cases n
    rfl
  | succ fuel ih =>
    intro n hn
    by_cases h : n % 2 = 1
    · have hpos : 0 < n := by
        rcases Nat.eq_zero_or_pos n with h0 | h0
        · subst h0; simp at h
        · exact h0
      have hhalf : n / 2 ≤ fuel := by
        have := Nat.div_lt_self hpos (by norm_num : 1 < 2)
        omega
      have ihh := ih (n / 2) hhalf
      have hshift : n >>> (trailingOnesAux fuel (n / 2) + 1) = (n / 2) >>> trailingOnesAux fuel (n / 2) := by
        rw [Nat.shiftRight_eq_div_pow, Nat.shiftRight_eq_div_pow, pow_succ, Nat.mul_comm,
          ← Nat.div_div_eq_div_mul]
      simp only [trailingOnesAux, h, if_true]
      rw [hshift]
      exact ihh
    · simp only [trailingOnesAux, h, if_false]
      rw [Nat.shiftRight_zero]
      omega

theorem BitmappedVersion.norm_even (b : BitmappedVersion) :
    (BitmappedVersion.norm b).bitmap % 2 = 0 :=
  trailingOnesAux_shift_even b.bitmap b.bitmap (Nat.le_refl _)

theorem BitmappedVersion.inv_norm (b : BitmappedVersion) : (BitmappedVersion.norm b).inv :=
  Or.inl (BitmappedVersion.norm_even b)

theorem trailingOnes_of_even {n : Nat} (h : n % 2 = 0) : trailingOnes n = 0 := by
  cases n with
  | zero => rfl
  | succ m =>
    have hne : ¬ (m + 1) % 2 = 1 := by omega
    simp [trailingOnes, trailingOnesAux, hne]

theorem BitmappedVersion.norm_of_inv {b : BitmappedVersion} (h : b.inv) :
    BitmappedVersion.norm b = b := by
  have heven : b.bitmap % 2 = 0 := by
    rcases h with h | h
    · exact h
    · simp [h]
  simp [BitmappedVersion.norm, trailingOnes_of_even heven]

theorem BitmappedVersion.join_comm (b c : BitmappedVersion) :
    BitmappedVersion.join b c = BitmappedVersion.join c b := by
  unfold BitmappedVersion.join
  rcases Nat.lt_trichotomy b.base c.base with hlt | heq | hgt
  · rw [if_neg (Nat.not_le_of_lt hlt), if_pos (Nat.le_of_lt hlt), Nat.lor_comm]
  · rw [if_pos (Nat.le_of_eq heq), if_pos (Nat.le_of_eq heq.symm), heq]
    simp [Nat.sub_self, Nat.shiftRight_zero, Nat.lor_comm]
  · rw [if_pos (Nat.le_of_lt hgt), if_neg (Nat.not_le_of_lt hgt), Nat.lor_comm]

theorem lor_self_eq (n : Nat) : n ||| n = n :=
  Nat.eq_of_testBit_eq (fun i => by rw [Nat.testBit_lor, Bool.or_self])

theorem BitmappedVersion.join_self {b : BitmappedVersion} (h : b.inv) :
    BitmappedVersion.join b b = b := by
  unfold BitmappedVersion.join
  rw [if_pos (Nat.le_refl _), Nat.sub_self, Nat.shiftRight_zero, lor_self_eq]
  exact BitmappedVersion.norm_of_inv h

theorem BitmappedVersion.inv_add {b : BitmappedVersion} (h : b.inv) (v : Version) :
    (BitmappedVersion.add b v).inv := by
  unfold BitmappedVersion.add
  by_cases hlt : b.base < v
  · rw [if_pos hlt]
    exact BitmappedVersion.inv_norm _
  · rw [if_neg hlt]
    exact h

/-! Lemmas about BitmappedVersionVector. -/

theorem BitmappedVersionVector.get_join (a : BitmappedVersionVector)
    {b : BitmappedVersionVector} (hb : LMap.WF b) (i : NodeId) :
    LMap.get (BitmappedVersionVector.join a b) i =
      match LMap.get a i, LMap.get b i with
      | some x, some y => some (BitmappedVersion.join x y)
      | some x, none => some x
      | none, _ => none := by
  induction b generalizing a with
  | nil =>
    cases ha : LMap.get a i <;> simp [BitmappedVersionVector.join, LMap.get, ha]
  | cons p rest ih =>
    obtain ⟨id, obv⟩ := p
    rw [LMap.WF, List.map_cons, List.nodup_cons] at hb
    rw [BitmappedVersionVector.join, ih _ hb.2]
    by_cases h : id = i
    · subst h
      rw [LMap.get_eq_none_of_not_mem hb.1]
      cases ha : LMap.get a id with
      | none => simp [ha, LMap.get]
      | some x => simp [ha, LMap.get, LMap.get_insert]
    · have hg : LMap.get ((id, obv) :: rest) i = LMap.get rest i := by
        simp [LMap.get, h]
      rw [hg]
      cases ha : LMap.get a id with
      | none => simp [ha]
      | some x =>
        simp only [ha]
        rw [LMap.get_insert, if_neg h]

/-! Lemmas about the two phases of Dots::merge. -/

theorem Dots.phase1_fst_get {T : Type} {s : List (Dot × T)} (hs : LMap.WF s)
    (other : List (Dot × T)) (dups : List (Dot × Unit)) (j : Dot) :
    LMap.get (Dots.phase1 s other dups).1 j = olift (LMap.get s j) (LMap.get other j) := by
  induction s generalizing other dups with
  | nil => simp [Dots.phase1, olift, LMap.get]
  | cons p rest ih =>
    obtain ⟨dot, value⟩ := p
    rw [LMap.WF, List.map_cons, List.nodup_cons] at hs
    rw [Dots.phase1, ih hs.2]
    by_cases h : dot = j
    · subst h
      rw [LMap.get_eq_none_of_not_mem hs.1]
      simp [olift, LMap.get, LMap.get_insert]
    · have hg : LMap.get ((dot, value) :: rest) j = LMap.get rest j := by
        simp [LMap.get, h]
      rw [hg, LMap.get_insert, if_neg h]

theorem Dots.phase1_snd_isSome {T : Type} {s : List (Dot × T)} (hs : LMap.WF s)
    (other : List (Dot × T)) (dups : List (Dot × Unit)) (j : Dot) :
    (LMap.get (Dots.phase1 s other dups).2 j).isSome =
      ((LMap.get dups j).isSome || ((LMap.get s j).isSome && (LMap.get other j).isSome)) := by
  induction s generalizing other dups with
  | nil => simp [Dots.phase1, LMap.get]
  | cons p rest ih =>
    obtain ⟨dot, value⟩ := p
    rw [LMap.WF, List.map_cons, List.nodup_cons] at hs
    rw [Dots.phase1, ih hs.2]
    by_cases h : dot = j
    · subst h
      rw [LMap.get_eq_none_of_not_mem hs.1]
      by_cases ho : (LMap.get other dot).isSome = true
      · simp [ho, LMap.get, LMap.get_insert]
      · have ho2 : (LMap.get other dot).isSome = false := by
          simpa using ho
        simp [ho2, LMap.get]
    · have hg : LMap.get ((dot, value) :: rest) j = LMap.get rest j := by
        simp [LMap.get, h]
      rw [hg, LMap.get_insert, if_neg h]
      by_cases ho : (LMap.get other dot).isSome = true
      · rw [if_pos ho, LMap.get_insert, if_neg h]
      · rw [if_neg ho]

theorem Dots.phase1_fst_WF {T : Type} (s : List (Dot × T)) {other : List (Dot × T)}
    (ho : LMap.WF other) (dups : List (Dot × Unit)) :
    LMap.WF (Dots.phase1 s other dups).1 := by
  induction s generalizing other dups with
  | nil => exact ho
  | cons p rest ih =>
    obtain ⟨dot, value⟩ := p
    rw [Dots.phase1]
    exact ih (LMap.WF_insert ho dot value) _

theorem Dots.phase2_get {T : Type} (dups : List (Dot × Unit)) (vv1 vv2 : VersionVector)
    {l : List (Dot × T)} (hl : LMap.WF l) (acc : List (Dot × T)) (j : Dot) :
    LMap.get (Dots.phase2 dups vv1 vv2 l acc) j =
      match LMap.get l j with
      | some x =>
        if (LMap.get dups j).isSome = true ∨
            j.2 = max ((LMap.get vv1 j.1).getD 0) ((LMap.get vv2 j.1).getD 0)
        then some x else LMap.get acc j
      | none => LMap.get acc j := by
  induction l generalizing acc with
  | nil => simp [Dots.phase2, LMap.get]
  | cons p rest ih =>
    obtain ⟨⟨id, version⟩, value⟩ := p
    rw [LMap.WF, List.map_cons, List.nodup_cons] at hl
    by_cases hc : (LMap.get dups (id, version)).isSome = true ∨
        version = max ((LMap.get vv1 id).getD 0) ((LMap.get vv2 id).getD 0)
    · rw [Dots.phase2, if_pos hc, ih hl.2]
      by_cases h : (id, version) = j
      · subst h
        rw [LMap.get_eq_none_of_not_mem hl.1]
        have hscrut : LMap.get (((id, version), value) :: rest) (id, version) = some value := by
          simp [LMap.get]
        rw [hscrut, LMap.get_insert, if_pos rfl]
        exact (if_pos hc).symm
      · have hg : LMap.get (((id, version), value) :: rest) j = LMap.get rest j := by
          simp [LMap.get, h]
        rw [hg]
        simp only [LMap.get_insert, if_neg h]
    · rw [Dots.phase2, if_neg hc, ih hl.2]
      by_cases h : (id, version) = j
      · subst h
        rw [LMap.get_eq_none_of_not_mem hl.1]
        have hscrut : LMap.get (((id, version), value) :: rest) (id, version) = some value := by
          simp [LMap.get]
        rw [hscrut]
        exact (if_neg hc).symm
      · have hg : LMap.get (((id, version), value) :: rest) j = LMap.get rest j := by
          simp [LMap.get, h]
        rw [hg]

theorem Dots.merge_get {T : Type} {x y : List (Dot × T)} (hx : LMap.WF x) (hy : LMap.WF y)
    (vv1 vv2 : VersionVector) (j : Dot) :
    LMap.get (Dots.merge x y vv1 vv2) j =
      if ((LMap.get x j).isSome = true ∧ (LMap.get y j).isSome = true) ∨
          (((LMap.get x j).isSome = true ∨ (LMap.get y j).isSome = true) ∧
            j.2 = max ((LMap.get vv1 j.1).getD 0) ((LMap.get vv2 j.1).getD 0))
      then olift (LMap.get x j) (LMap.get y j) else none := by
  rw [Dots.merge, Dots.phase2_get _ _ _ (Dots.phase1_fst_WF x hy []) [] j,
    Dots.phase1_fst_get hx]
  have hdup : (LMap.get (Dots.phase1 x y ([] : List (Dot × Unit))).2 j).isSome =
      ((LMap.get x j).isSome && (LMap.get y j).isSome) := by
    rw [Dots.phase1_snd_isSome hx]
    simp [LMap.get]
  rw [hdup]
  by_cases hM : j.2 = max ((LMap.get vv1 j.1).getD 0) ((LMap.get vv2 j.1).getD 0) <;>
    cases hX : LMap.get x j <;> cases hY : LMap.get y j <;>
      simp [olift, hM, LMap.get]

/-! Characterizations of the DottedCausalContainer operations. -/

theorem DottedCausalContainer.sync_dots_get {T : Type} {x y : DottedCausalContainer T}
    (hx : LMap.WF x.dots) (hy : LMap.WF y.dots) (j : Dot) :
    LMap.get (x.sync y).dots j =
      if ((LMap.get x.dots j).isSome = true ∧ (LMap.get y.dots j).isSome = true) ∨
          (((LMap.get x.dots j).isSome = true ∨ (LMap.get y.dots j).isSome = true) ∧
            j.2 = max ((LMap.get x.vv j.1).getD 0) ((LMap.get y.vv j.1).getD 0))
      then olift (LMap.get x.dots j) (LMap.get y.dots j) else none :=
  Dots.merge_get hx hy x.vv y.vv j

theorem DottedCausalContainer.sync_vv_get {T : Type} (x : DottedCausalContainer T)
    {y : DottedCausalContainer T} (hyv : LMap.WF y.vv) (i : NodeId) :
    LMap.get (x.sync y).vv i = maxOpt (LMap.get x.vv i) (LMap.get y.vv i) :=
  VersionVector.get_merge x.vv hyv i

theorem DottedCausalContainer.fillVV_get (s : VersionVector) {bvv : BitmappedVersionVector}
    (hb : LMap.WF bvv) (i : NodeId) :
    LMap.get (DottedCausalContainer.fillVV s bvv) i =
      maxOpt (LMap.get s i) ((LMap.get bvv i).map BitmappedVersion.base) := by
  induction bvv generalizing s with
  | nil =>
    cases hs : LMap.get s i <;> simp [DottedCausalContainer.fillVV, maxOpt, LMap.get, hs]
  | cons p rest ih =>
    obtain ⟨id, bv⟩ := p
    rw [LMap.WF, List.map_cons, List.nodup_cons] at hb
    rw [DottedCausalContainer.fillVV, ih _ hb.2, VersionVector.get_add]
    by_cases h : id = i
    · subst h
      rw [LMap.get_eq_none_of_not_mem hb.1]
      cases hs : LMap.get s id <;> simp [LMap.get, maxOpt, hs]
    · have hg : LMap.get ((id, bv) :: rest) i = LMap.get rest i := by
        simp [LMap.get, h]
      simp only [if_neg h, hg]

/-! Claim theorems. -/

/-- C6: starting from a BitmappedVersion satisfying the normalization
invariant (bit 0 of the bitmap is 0, or the bitmap is 0), every value
produced by add, join or norm satisfies the invariant again. -/
theorem C6_normalization_invariant (b : BitmappedVersion) (h : b.inv) :
    (∀ v : Version, (BitmappedVersion.add b v).inv) ∧
    (∀ o : BitmappedVersion, (BitmappedVersion.join b o).inv) ∧
    (BitmappedVersion.norm b).inv := by
  refine ⟨fun v => BitmappedVersion.inv_add h v, fun o => ?_, BitmappedVersion.inv_norm b⟩
  unfold BitmappedVersion.join
  exact BitmappedVersion.inv_norm _

theorem C6_normalization_invariant_witness :
    (BitmappedVersion.add ⟨3, 2⟩ 7).inv ∧
    (BitmappedVersion.join ⟨3, 2⟩ ⟨1, 5⟩).inv ∧
    (BitmappedVersion.norm ⟨3, 2⟩).inv :=
  ⟨(C6_normalization_invariant ⟨3, 2⟩ (by decide)).1 7,
   (C6_normalization_invariant ⟨3, 2⟩ (by decide)).2.1 ⟨1, 5⟩,
   (C6_normalization_invariant ⟨3, 2⟩ (by decide)).2.2⟩

/-- C7: when the entry for id is absent or has bitmap 0, event returns the
next dense event number (1 when absent, old base + 1 otherwise) and
afterwards get id is exactly (returned value, bitmap 0). -/
theorem C7_event_dense (m : BitmappedVersionVector) (id : NodeId)
    (h : LMap.get m id = none ∨ ∃ base : Version, LMap.get m id = some ⟨base, 0⟩) :
    ((BitmappedVersionVector.event m id).1 =
      match LMap.get m id with
      | none => 1
      | some bv => bv.base + 1) ∧
    BitmappedVersionVector.get (BitmappedVersionVector.event m id).2 id =
      some ⟨(BitmappedVersionVector.event m id).1, 0⟩ := by
  rcases h with h | ⟨base, h⟩ <;>
    simp [BitmappedVersionVector.event, BitmappedVersionVector.get, h, LMap.get_insert]

theorem C7_event_dense_witness :
    ((BitmappedVersionVector.event [(1, ⟨2, 0⟩)] 1).1 = 3) ∧
    BitmappedVersionVector.get (BitmappedVersionVector.event [(1, ⟨2, 0⟩)] 1).2 1 =
      some ⟨(BitmappedVersionVector.event [(1, ⟨2, 0⟩)] 1).1, 0⟩ :=
  C7_event_dense [(1, ⟨2, 0⟩)] 1 (Or.inr ⟨2, rfl⟩)

/-- C2 counterexample: join is not commutative (an actor present only in the
first argument survives join a b but not join b a), and join a a changes a
when an entry is not normalized. -/
theorem C2_counterexample :
    (¬ ∀ a b : BitmappedVersionVector, ∀ i,
        LMap.get (BitmappedVersionVector.join a b) i =
          LMap.get (BitmappedVersionVector.join b a) i) ∧
    (¬ ∀ a : BitmappedVersionVector, ∀ i,
        LMap.get (BitmappedVersionVector.join a a) i = LMap.get a i) := by
  constructor
  · intro h
    exact absurd (h [(1, ⟨1, 0⟩)] [] 1) (by decide)
  · intro h
    exact absurd (h [(1, ⟨0, 1⟩)] 1) (by decide)

/-- C2 (amended): join is commutative for well-formed BVVs with the same set
of actors, and join a a leaves a unchanged when every entry of a is
normalized. -/
theorem C2_join_comm_idem :
    (∀ a b : BitmappedVersionVector, LMap.WF a → LMap.WF b →
      (∀ p ∈ a, (LMap.get b p.1).isSome = true) →
      (∀ p ∈ b, (LMap.get a p.1).isSome = true) →
      ∀ i, LMap.get (BitmappedVersionVector.join a b) i =
        LMap.get (BitmappedVersionVector.join b a) i) ∧
    (∀ a : BitmappedVersionVector, LMap.WF a →
      (∀ p ∈ a, (p.2 : BitmappedVersion).inv) →
      ∀ i, LMap.get (BitmappedVersionVector.join a a) i = LMap.get a i) := by
  constructor
  · intro a b ha hb hab hba i
    rw [BitmappedVersionVector.get_join a hb, BitmappedVersionVector.get_join b ha]
    cases hA : LMap.get a i with
    | none =>
      cases hB : LMap.get b i with
      | none => rfl
      | some y =>
        have hy := hba _ (LMap.get_mem hB)
        rw [hA] at hy
        exact absurd hy (by simp)
    | some x =>
      cases hB : LMap.get b i with
      | none =>
        have hx := hab _ (LMap.get_mem hA)
        rw [hB] at hx
        exact absurd hx (by simp)
      | some y => simp [BitmappedVersion.join_comm x y]
  · intro a ha hinv i
    rw [BitmappedVersionVector.get_join a ha]
    cases hA : LMap.get a i with
    | none => rfl
    | some x =>
      have hx : x.inv := hinv _ (LMap.get_mem hA)
      simp [BitmappedVersion.join_self hx]

theorem C2_join_comm_idem_witness :
    LMap.get (BitmappedVersionVector.join [(1, ⟨2, 4⟩)] [(1, ⟨5, 2⟩)]) 1 =
      LMap.get (BitmappedVersionVector.join [(1, ⟨5, 2⟩)] [(1, ⟨2, 4⟩)]) 1 ∧
    LMap.get (BitmappedVersionVector.join [(1, ⟨5, 2⟩)] [(1, ⟨5, 2⟩)]) 1 =
      LMap.get [(1, (⟨5, 2⟩ : BitmappedVersion))] 1 :=
  ⟨C2_join_comm_idem.1 _ _ (by decide) (by decide) (by decide) (by decide) 1,
   C2_join_comm_idem.2 _ (by decide) (by decide) 1⟩

/-- C1 counterexample: with x = (dots {(1,8)}, vv {}) and y = (dots {}, vv
{1:4}), the dot (1,8) is not dominated (8 > 4) and the claim predicts it
survives x.sync(y), but the code drops it because 8 differs from
max(x.vv[1], y.vv[1]) = 4. -/
theorem C1_counterexample :
    ¬ (∀ x y : DottedCausalContainer Nat, x.WF → y.WF →
        (∀ i v, ((LMap.get (x.sync y).dots (i, v)).isSome = true ↔
          ((LMap.get x.dots (i, v)).isSome = true ∧ (LMap.get y.dots (i, v)).isSome = true) ∨
          ((LMap.get x.dots (i, v)).isSome = true ∧ (LMap.get y.vv i).getD 0 < v) ∨
          ((LMap.get y.dots (i, v)).isSome = true ∧ (LMap.get x.vv i).getD 0 < v))) ∧
        (∀ i, LMap.get (x.sync y).vv i = maxOpt (LMap.get x.vv i) (LMap.get y.vv i))) := by
  intro h
  have h1 := (h ⟨[((1, 8), 0)], []⟩ ⟨[], [(1, 4)]⟩ (by decide) (by decide)).1 1 8
  exact absurd h1 (by decide)

/-- C1 (amended): after x.sync(y) a dot (i, v) survives iff it is present in
both x and y, or it is present in at least one side and v equals
max(x.vv[i], y.vv[i]) (missing entries read as 0); the resulting vv is the
elementwise max of x.vv and y.vv. -/
theorem C1_sync_survival {T : Type} (x y : DottedCausalContainer T)
    (hx : x.WF) (hy : y.WF) :
    (∀ i v, ((LMap.get (x.sync y).dots (i, v)).isSome = true ↔
      ((LMap.get x.dots (i, v)).isSome = true ∧ (LMap.get y.dots (i, v)).isSome = true) ∨
      (((LMap.get x.dots (i, v)).isSome = true ∨ (LMap.get y.dots (i, v)).isSome = true) ∧
        v = max ((LMap.get x.vv i).getD 0) ((LMap.get y.vv i).getD 0)))) ∧
    (∀ i, LMap.get (x.sync y).vv i = maxOpt (LMap.get x.vv i) (LMap.get y.vv i)) := by
  constructor
  · intro i v
    rw [DottedCausalContainer.sync_dots_get hx.1 hy.1 (i, v)]
    by_cases hM : v = max ((LMap.get x.vv i).getD 0) ((LMap.get y.vv i).getD 0) <;>
      cases hX : LMap.get x.dots (i, v) <;> cases hY : LMap.get y.dots (i, v) <;>
        simp [olift, hM]
  · intro i
    exact DottedCausalContainer.sync_vv_get x hy.2 i

theorem C1_sync_survival_witness :
    ((LMap.get ((DottedCausalContainer.sync
        (⟨[((1, 2), 0)], [(1, 2)]⟩ : DottedCausalContainer Nat)
        (⟨[], []⟩ : DottedCausalContainer Nat)).dots) (1, 2)).isSome = true ↔
      ((LMap.get ([((1, 2), 0)] : List (Dot × Nat)) (1, 2)).isSome = true ∧
        (LMap.get ([] : List (Dot × Nat)) (1, 2)).isSome = true) ∨
      (((LMap.get ([((1, 2), 0)] : List (Dot × Nat)) (1, 2)).isSome = true ∨
        (LMap.get ([] : List (Dot × Nat)) (1, 2)).isSome = true) ∧
        2 = max ((LMap.get ([(1, 2)] : VersionVector) 1).getD 0)
          ((LMap.get ([] : VersionVector) 1).getD 0))) ∧
    LMap.get ((DottedCausalContainer.sync
        (⟨[((1, 2), 0)], [(1, 2)]⟩ : DottedCausalContainer Nat)
        (⟨[], []⟩ : DottedCausalContainer Nat)).vv) 1 =
      maxOpt (LMap.get ([(1, 2)] : VersionVector) 1) (LMap.get ([] : VersionVector) 1) :=
  ⟨(C1_sync_survival (⟨[((1, 2), 0)], [(1, 2)]⟩ : DottedCausalContainer Nat)
      (⟨[], []⟩ : DottedCausalContainer Nat) (by decide) (by decide)).1 1 2,
   (C1_sync_survival (⟨[((1, 2), 0)], [(1, 2)]⟩ : DottedCausalContainer Nat)
      (⟨[], []⟩ : DottedCausalContainer Nat) (by decide) (by decide)).2 1⟩

/-- C5 counterexample: sync is not associative (a dot kept as a duplicate on
one association order is dropped on the other), and not commutative when the
two sides carry different values on a shared dot. -/
theorem C5_counterexample :
    (¬ ∀ x y z : DottedCausalContainer Nat,
        (DottedCausalContainer.sync (DottedCausalContainer.sync x y) z).eqv
          (DottedCausalContainer.sync x (DottedCausalContainer.sync y z))) ∧
    (¬ ∀ x y : DottedCausalContainer Nat,
        (DottedCausalContainer.sync x y).eqv (DottedCausalContainer.sync y x)) := by
  constructor
  · intro h
    have h1 := (h ⟨[((1, 3), 0)], [(1, 5)]⟩ ⟨[((1, 3), 0)], [(1, 3)]⟩ ⟨[], [(1, 3)]⟩).1 (1, 3)
    exact absurd h1 (by decide)
  · intro h
    have h1 := (h ⟨[((1, 1), 0)], []⟩ ⟨[((1, 1), 1)], []⟩).1 (1, 1)
    exact absurd h1 (by decide)

/-- C5 (amended): sync is idempotent for every well-formed DCC, and
commutative for well-formed DCCs that carry equal values on every dot present
in both; associativity does not hold in general. -/
theorem C5_sync_idem_comm {T : Type} :
    (∀ x : DottedCausalContainer T, x.WF → (DottedCausalContainer.sync x x).eqv x) ∧
    (∀ x y : DottedCausalContainer T, x.WF → y.WF →
      (∀ p ∈ x.dots, ∀ q ∈ y.dots, p.1 = q.1 → p.2 = q.2) →
      (DottedCausalContainer.sync x y).eqv (DottedCausalContainer.sync y x)) := by
  constructor
  · intro x hx
    constructor
    · intro p
      rw [DottedCausalContainer.sync_dots_get hx.1 hx.1 p]
      cases hX : LMap.get x.dots p <;> simp [olift]
    · intro i
      rw [DottedCausalContainer.sync_vv_get x hx.2 i]
      cases hV : LMap.get x.vv i <;> simp [maxOpt]
  · intro x y hx hy hagree
    constructor
    · intro p
      rw [DottedCausalContainer.sync_dots_get hx.1 hy.1 p,
        DottedCausalContainer.sync_dots_get hy.1 hx.1 p]
      cases hX : LMap.get x.dots p with
      | none =>
        cases hY : LMap.get y.dots p <;>
          by_cases hM : p.2 = max ((LMap.get x.vv p.1).getD 0) ((LMap.get y.vv p.1).getD 0) <;>
            simp [olift, hM, Nat.max_comm]
      | some a =>
        cases hY : LMap.get y.dots p with
        | none =>
          by_cases hM : p.2 = max ((LMap.get x.vv p.1).getD 0) ((LMap.get y.vv p.1).getD 0) <;>
            simp [olift, hM, Nat.max_comm]
        | some b =>
          have hab : a = b := hagree _ (LMap.get_mem hX) _ (LMap.get_mem hY) rfl
          subst hab
          by_cases hM : p.2 = max ((LMap.get x.vv p.1).getD 0) ((LMap.get y.vv p.1).getD 0) <;>
            simp [olift, hM, Nat.max_comm]
    · intro i
      rw [DottedCausalContainer.sync_vv_get x hy.2 i,
        DottedCausalContainer.sync_vv_get y hx.2 i]
      cases hA : LMap.get x.vv i <;> cases hB : LMap.get y.vv i <;>
        simp [maxOpt, Nat.max_comm]

theorem C5_sync_idem_comm_witness :
    LMap.get ((DottedCausalContainer.sync
        (⟨[((1, 3), 5)], [(1, 4)]⟩ : DottedCausalContainer Nat)
        (⟨[((1, 3), 5)], [(1, 4)]⟩ : DottedCausalContainer Nat)).dots) (1, 3) =
      LMap.get ([((1, 3), 5)] : List (Dot × Nat)) (1, 3) ∧
    LMap.get ((DottedCausalContainer.sync
        (⟨[((1, 3), 5)], [(1, 4)]⟩ : DottedCausalContainer Nat)
        (⟨[], [(2, 2)]⟩ : DottedCausalContainer Nat)).dots) (1, 3) =
      LMap.get ((DottedCausalContainer.sync
        (⟨[], [(2, 2)]⟩ : DottedCausalContainer Nat)
        (⟨[((1, 3), 5)], [(1, 4)]⟩ : DottedCausalContainer Nat)).dots) (1, 3) :=
  ⟨(C5_sync_idem_comm.1 (⟨[((1, 3), 5)], [(1, 4)]⟩ : DottedCausalContainer Nat)
      (by decide)).1 (1, 3),
   (C5_sync_idem_comm.2 (⟨[((1, 3), 5)], [(1, 4)]⟩ : DottedCausalContainer Nat)
      (⟨[], [(2, 2)]⟩ : DottedCausalContainer Nat)
      (by decide) (by decide) (by decide)).1 (1, 3)⟩

/-- C8: discard removes exactly the dots whose version is at most the context
entry for their actor (missing entries read as 0), keeps every other dot with
its value unchanged, and merges the context into the version vector by
elementwise max. -/
theorem C8_discard_dominated {T : Type} (d : DottedCausalContainer T) (ctx : VersionVector)
    (hd : LMap.WF d.dots) (hctx : LMap.WF ctx) :
    (∀ i v, LMap.get (d.discard ctx).dots (i, v) =
      if (LMap.get ctx i).getD 0 < v then LMap.get d.dots (i, v) else none) ∧
    (∀ i, LMap.get (d.discard ctx).vv i = maxOpt (LMap.get d.vv i) (LMap.get ctx i)) := by
  constructor
  · intro i v
    show LMap.get (d.dots.filter _) (i, v) = _
    rw [LMap.get_filter hd _ (i, v)]
    cases hD : LMap.get d.dots (i, v) with
    | none => by_cases hlt : (LMap.get ctx i).getD 0 < v <;> simp [hlt]
    | some a => by_cases hlt : (LMap.get ctx i).getD 0 < v <;> simp [hlt]
  · intro i
    exact VersionVector.get_merge d.vv hctx i

theorem C8_discard_dominated_witness :
    LMap.get ((DottedCausalContainer.discard
        (⟨[((1, 3), 7), ((2, 2), 9)], [(1, 4), (2, 7)]⟩ : DottedCausalContainer Nat)
        [(1, 2), (2, 15)]).dots) (1, 3) =
      (if (LMap.get ([(1, 2), (2, 15)] : VersionVector) 1).getD 0 < 3 then
        LMap.get ([((1, 3), 7), ((2, 2), 9)] : List (Dot × Nat)) (1, 3) else none) ∧
    LMap.get ((DottedCausalContainer.discard
        (⟨[((1, 3), 7), ((2, 2), 9)], [(1, 4), (2, 7)]⟩ : DottedCausalContainer Nat)
        [(1, 2), (2, 15)]).vv) 2 =
      maxOpt (LMap.get ([(1, 4), (2, 7)] : VersionVector) 2)
        (LMap.get ([(1, 2), (2, 15)] : VersionVector) 2) :=
  ⟨(C8_discard_dominated
      (⟨[((1, 3), 7), ((2, 2), 9)], [(1, 4), (2, 7)]⟩ : DottedCausalContainer Nat)
      [(1, 2), (2, 15)] (by decide) (by decide)).1 1 3,
   (C8_discard_dominated
      (⟨[((1, 3), 7), ((2, 2), 9)], [(1, 4), (2, 7)]⟩ : DottedCausalContainer Nat)
      [(1, 2), (2, 15)] (by decide) (by decide)).2 2⟩

/-- C9 counterexample: with d = (dots {}, vv {1:2}) and bvv = {1:(5,0)} the
dots-above hypothesis of the claim holds vacuously, yet strip followed by
fill turns the entry for actor 1 from 2 into 5, so the resulting vv does not
agree with d.vv on an actor present in bvv. -/
theorem C9_counterexample :
    ¬ (∀ (d : DottedCausalContainer Nat) (bvv : BitmappedVersionVector),
        d.WF → LMap.WF bvv →
        (∀ p ∈ d.dots, ((LMap.get bvv p.1.1).map BitmappedVersion.base).getD 0 < p.1.2) →
        ∀ i, (LMap.get bvv i).isSome = true →
          LMap.get ((DottedCausalContainer.fill
            (DottedCausalContainer.strip d bvv) bvv).vv) i = LMap.get d.vv i) := by
  intro h
  have h1 := h ⟨[], [(1, 2)]⟩ [(1, ⟨5, 0⟩)] (by decide) (by decide) (by decide) 1 (by decide)
  exact absurd h1 (by decide)

/-- C9 (amended): if additionally the version vector of d covers bvv (for
every actor present in bvv, d.vv has an entry at least that base), then strip
followed by fill restores vv on every actor present in bvv. -/
theorem C9_strip_fill_roundtrip {T : Type} (d : DottedCausalContainer T)
    (bvv : BitmappedVersionVector) (hdv : LMap.WF d.vv) (hb : LMap.WF bvv)
    (_hdots : ∀ p ∈ d.dots, ((LMap.get bvv p.1.1).map BitmappedVersion.base).getD 0 < p.1.2)
    (hcover : ∀ q ∈ bvv,
      (q.2 : BitmappedVersion).base ≤ (LMap.get d.vv q.1).getD 0 ∧
        (LMap.get d.vv q.1).isSome = true) :
    ∀ i, (LMap.get bvv i).isSome = true →
      LMap.get ((DottedCausalContainer.fill
        (DottedCausalContainer.strip d bvv) bvv).vv) i = LMap.get d.vv i := by
  intro i hi
  cases hB : LMap.get bvv i with
  | none => rw [hB] at hi; simp at hi
  | some bv =>
    have hcov := hcover _ (LMap.get_mem hB)
    cases hV : LMap.get d.vv i with
    | none =>
      rw [hV] at hcov
      simp at hcov
    | some w =>
      rw [hV] at hcov
      have hle : bv.base ≤ w := by simpa using hcov.1
      have hfill := DottedCausalContainer.fillVV_get
        (DottedCausalContainer.strip d bvv).vv hb i
      have hstrip : LMap.get (DottedCausalContainer.strip d bvv).vv i =
          if bv.base < w then some w else none := by
        show LMap.get (d.vv.filter _) i = _
        rw [LMap.get_filter hdv _ i, hV]
        simp [hB]
      rw [show (DottedCausalContainer.fill (DottedCausalContainer.strip d bvv) bvv).vv =
        DottedCausalContainer.fillVV (DottedCausalContainer.strip d bvv).vv bvv from rfl,
        hfill, hstrip, hB]
      by_cases hlt : bv.base < w
      · rw [if_pos hlt]
        simp [maxOpt, Nat.max_eq_left (Nat.le_of_lt hlt)]
      · rw [if_neg hlt]
        have heq : bv.base = w := Nat.le_antisymm hle (Nat.le_of_not_lt hlt)
        simp [maxOpt, heq]

theorem C9_strip_fill_roundtrip_witness :
    LMap.get ((DottedCausalContainer.fill
      (DottedCausalContainer.strip
        (⟨[((1, 5), 0)], [(1, 5)]⟩ : DottedCausalContainer Nat) [(1, ⟨3, 0⟩)])
      [(1, ⟨3, 0⟩)]).vv) 1 = LMap.get ([(1, 5)] : VersionVector) 1 :=
  C9_strip_fill_roundtrip (⟨[((1, 5), 0)], [(1, 5)]⟩ : DottedCausalContainer Nat)
    [(1, ⟨3, 0⟩)] (by decide) (by decide) (by decide) (by decide) 1 (by decide)

/-- C3 failing input: on the RESP array [SET, k, v] the handler chunks the
full argument array (verb included) by 3, so the single SET issued writes
value k under the key b"SET" with an empty context, instead of writing v
under k; a supplied context is never decoded (cmd_set always passes
VersionVector::new). -/
theorem C3_set_uses_verb_as_key :
    Database.handler_cmd (RespValue.array
        [RespValue.data bSET, RespValue.data [107], RespValue.data [118]]) =
      ([StoreOp.set bSET (some [107]) VersionVector.new], false) ∧
    Database.handler_cmd (RespValue.array
        [RespValue.data bSET, RespValue.data [107], RespValue.data [118]]) ≠
      ([StoreOp.set [107] (some [118]) VersionVector.new], false) := by
  constructor
  · rfl
  · decide

/-- C4 failing input: on the RESP array [GET, k] the handler loops over the
full argument array (verb included), so it issues a GET for the verb bytes
b"GET" as well as one for k, instead of exactly one GET for k. -/
theorem C4_get_includes_verb :
    Database.handler_cmd (RespValue.array [RespValue.data bGET, RespValue.data [107]]) =
      ([StoreOp.get bGET, StoreOp.get [107]], false) ∧
    Database.handler_cmd (RespValue.array [RespValue.data bGET, RespValue.data [107]]) ≠
      ([StoreOp.get [107]], false) := by
  constructor
  · rfl
  · decide

/-- C10: on the four-element RESP array [SET, k, v, ctx] the chunks of 3 are
[SET, k, v] and [ctx]; the second iteration reads w[1] of a one-element
chunk, an out-of-bounds index, so the handler aborts (flag true) after
issuing only the shifted write of the first chunk — neither the claimed
write of v under k nor any error response happens. -/
theorem C10_set_with_ctx_aborts :
    Database.handler_cmd (RespValue.array
        [RespValue.data bSET, RespValue.data [107], RespValue.data [118], RespValue.data [99]]) =
      ([StoreOp.set bSET (some [107]) VersionVector.new], true) := by
  rfl
